import Mathlib

/-!
Shallow embedding of the PyMercury release scripts: `deploy.py` (version
validation, manifest version rewriting with backup and rollback, and the
release orchestration flow) and `run_tests.py` (the test-runner wrapper).
Strings are modelled as `List Char`.  The two regular expressions used by
`deploy.py` are modelled by deterministic scanners; on these patterns the
greedy scan agrees with Python's backtracking regex semantics because the
repeated character classes are disjoint from the characters that follow
them.
-/

namespace PyMercury

/-- The double-quote character (written via its code point). -/
def dq : Char := Char.ofNat 34

/-! ### `validate_version` (deploy.py lines 34-37)

`re.match(r'^[0-9]+\.[0-9]+\.[0-9]+$', version) is not None`.
`re.match` anchors at the start; without `re.MULTILINE`, `$` matches at the
end of the string or immediately before a single trailing newline. -/

/-- Regex token `[0-9]+`: one mandatory digit, then greedily all following
digits; returns the unconsumed remainder. -/
def matchDigits1 : List Char → Option (List Char)
  | [] => none
  | c :: rest => if c.isDigit then some (rest.dropWhile Char.isDigit) else none

/-- Regex token `\.`: consume a literal dot. -/
def matchDot : List Char → Option (List Char)
  | [] => none
  | c :: rest => if c = '.' then some rest else none

/-- Python's `$` (no MULTILINE): succeeds at the end of the string or just
before a single trailing newline. -/
def pyDollar (r : List Char) : Bool := (r == []) || (r == '\n' :: [])

/-- `validate_version` from deploy.py: `^[0-9]+\.[0-9]+\.[0-9]+$`. -/
def validate_version (s : List Char) : Bool :=
  (((((matchDigits1 s).bind matchDot).bind matchDigits1).bind
    matchDot).bind matchDigits1).elim false pyDollar

/-- Spec-side notion (from the spec's words, for claim C1): a nonempty
group of decimal digits. -/
def digitStr (l : List Char) : Prop := l ≠ [] ∧ ∀ c ∈ l, c.isDigit = true

/-- Spec-side notion (from the spec's words, for claim C1): the string
consists exactly of three digit groups separated by dots
(`\d+\.\d+\.\d+` with no extra characters). -/
def specShape (s : List Char) : Prop :=
  ∃ a b c, digitStr a ∧ digitStr b ∧ digitStr c ∧
    s = a ++ '.' :: (b ++ '.' :: c)

/-! #### Helper lemmas for the digit scanner -/

theorem mem_takeWhile_pred {p : Char → Bool} :
    ∀ {l : List Char} {c : Char}, c ∈ l.takeWhile p → p c = true := by
  intro l
  induction l with
  | nil => intro c h; simp [List.takeWhile] at h
  | cons a l ih =>
    intro c h
    by_cases hp : p a
    · rw [List.takeWhile_cons_of_pos hp] at h
      rcases List.mem_cons.mp h with rfl | h
      · exact hp
      · exact ih h
    · rw [List.takeWhile_cons_of_neg hp] at h
      simp at h

theorem matchDigits1_some {s r : List Char} (h : matchDigits1 s = some r) :
    ∃ g, g ≠ [] ∧ (∀ c ∈ g, c.isDigit = true) ∧ s = g ++ r := by
  cases s with
  | nil => simp [matchDigits1] at h
  | cons c rest =>
    by_cases hd : c.isDigit
    · simp [matchDigits1, hd] at h
      refine ⟨c :: rest.takeWhile Char.isDigit, by simp, ?_, ?_⟩
      · intro x hx
        rcases List.mem_cons.mp hx with rfl | hx
        · exact hd
        · exact mem_takeWhile_pred hx
      · rw [← h]
        simp [List.takeWhile_append_dropWhile]
    · simp [matchDigits1, hd] at h

theorem dropWhile_all_append {p : Char → Bool} :
    ∀ {xs : List Char} (ys : List Char), (∀ c ∈ xs, p c = true) →
      (xs ++ ys).dropWhile p = ys.dropWhile p := by
  intro xs
  induction xs with
  | nil => intro ys _; rfl
  | cons a l ih =>
    intro ys h
    have ha : p a = true := h a (List.mem_cons_self a l)
    rw [List.cons_append, List.dropWhile_cons_of_pos ha]
    exact ih ys fun c hc => h c (List.mem_cons_of_mem a hc)

theorem takeWhile_all_append {p : Char → Bool} :
    ∀ {xs : List Char} (ys : List Char), (∀ c ∈ xs, p c = true) →
      (xs ++ ys).takeWhile p = xs ++ ys.takeWhile p := by
  intro xs
  induction xs with
  | nil => intro ys _; rfl
  | cons a l ih =>
    intro ys h
    have ha : p a = true := h a (List.mem_cons_self a l)
    rw [List.cons_append, List.takeWhile_cons_of_pos ha, ih ys
      fun c hc => h c (List.mem_cons_of_mem a hc)]
    rfl

/-- If a nonempty all-digit group is followed by a remainder whose head is
not a digit (or which is empty), the greedy digit scanner consumes exactly
the group. -/
theorem matchDigits1_complete {g r : List Char} (hg : g ≠ [])
    (hdig : ∀ c ∈ g, c.isDigit = true)
    (hr : ∀ c t, r = c :: t → c.isDigit = false) :
    matchDigits1 (g ++ r) = some r := by
  cases g with
  | nil => exact absurd rfl hg
  | cons c g' =>
    have hc : c.isDigit = true := hdig c (List.mem_cons_self c g')
    have hg' : ∀ x ∈ g', x.isDigit = true :=
      fun x hx => hdig x (List.mem_cons_of_mem c hx)
    rw [List.cons_append]
    simp only [matchDigits1, hc, if_pos]
    rw [dropWhile_all_append r hg']
    cases r with
    | nil => rfl
    | cons x t =>
      have hx : x.isDigit = false := hr x t rfl
      rw [List.dropWhile_cons_of_neg (by simp [hx])]

theorem matchDot_some {r r2 : List Char} (h : matchDot r = some r2) :
    r = '.' :: r2 := by
  cases r with
  | nil => simp [matchDot] at h
  | cons c t =>
    by_cases hc : c = '.'
    · simp [matchDot, hc] at h; rw [hc, h]
    · simp [matchDot, hc] at h

theorem matchDot_cons (r : List Char) : matchDot ('.' :: r) = some r := by
  simp [matchDot]

/-- Claim C1, amended: `validate_version` accepts exactly the strings of
shape `\d+\.\d+\.\d+`, either with nothing after the last digit group or
with a single trailing newline (Python's `$` also matches just before a
final newline). -/
theorem C1_validate_version_amended (s : List Char) :
    validate_version s = true ↔
      (specShape s ∨ ∃ t, specShape t ∧ s = t ++ '\n' :: []) := by
  constructor
  · intro h
    unfold validate_version at h
    cases hc5 : ((((matchDigits1 s).bind matchDot).bind matchDigits1).bind
        matchDot).bind matchDigits1 with
    | none => rw [hc5] at h; exact absurd h (by simp)
    | some r5 =>
      rw [hc5] at h
      have hdollar : pyDollar r5 = true := h
      obtain ⟨r4, hc4, h5⟩ := Option.bind_eq_some.mp hc5
      obtain ⟨r3, hc3, h4⟩ := Option.bind_eq_some.mp hc4
      obtain ⟨r2, hc2, h3⟩ := Option.bind_eq_some.mp hc3
      obtain ⟨r1, h1, h2⟩ := Option.bind_eq_some.mp hc2
      obtain ⟨a, ha0, ha, hsa⟩ := matchDigits1_some h1
      obtain ⟨b, hb0, hb, hsb⟩ := matchDigits1_some h3
      obtain ⟨c, hc0, hc, hsc⟩ := matchDigits1_some h5
      have hr1 : r1 = '.' :: r2 := matchDot_some h2
      have hr3 : r3 = '.' :: r4 := matchDot_some h4
      have hdr : r5 = [] ∨ r5 = '\n' :: [] := by
        simp [pyDollar] at hdollar
        rcases hdollar with h' | h'
        · exact Or.inl h'
        · exact Or.inr h'
      rcases hdr with rfl | rfl
      · left
        refine ⟨a, b, c, ⟨ha0, ha⟩, ⟨hb0, hb⟩, ⟨hc0, hc⟩, ?_⟩
        rw [hsa, hr1, hsb, hr3, hsc]
        simp
      · right
        refine ⟨a ++ '.' :: (b ++ '.' :: c),
          ⟨a, b, c, ⟨ha0, ha⟩, ⟨hb0, hb⟩, ⟨hc0, hc⟩, rfl⟩, ?_⟩
        rw [hsa, hr1, hsb, hr3, hsc]
        simp
  · intro h
    have key : ∀ a b c tail, digitStr a → digitStr b → digitStr c →
        (∀ x t, tail = x :: t → x.isDigit = false) →
        validate_version (a ++ '.' :: (b ++ '.' :: (c ++ tail))) =
          pyDollar tail := by
      intro a b c tail ⟨ha0, ha⟩ ⟨hb0, hb⟩ ⟨hc0, hc⟩ htail
      unfold validate_version
      rw [matchDigits1_complete ha0 ha
          (by intro x t hx; injection hx with h1 _; rw [← h1]; decide),
        Option.some_bind, matchDot_cons, Option.some_bind,
        matchDigits1_complete hb0 hb
          (by intro x t hx; injection hx with h1 _; rw [← h1]; decide),
        Option.some_bind, matchDot_cons, Option.some_bind,
        matchDigits1_complete hc0 hc htail]
      rfl
    rcases h with ⟨a, b, c, ha, hb, hc, rfl⟩ | ⟨t, ⟨a, b, c, ha, hb, hc, rfl⟩, rfl⟩
    · have := key a b c [] ha hb hc (by intro x t hx; simp at hx)
      rw [List.append_nil] at this
      rw [this]
      rfl
    · have := key a b c ('\n' :: []) ha hb hc
        (by intro x t hx; injection hx with h1 _; rw [← h1]; decide)
      rw [show (a ++ '.' :: (b ++ '.' :: c)) ++ '\n' :: [] =
        a ++ '.' :: (b ++ '.' :: (c ++ '\n' :: [])) by simp]
      rw [this]
      rfl

def strC1 : String := "1.0.5\n"

/-- Claim C1, counterexample: `validate_version` accepts `"1.0.5\n"`,
which is not exactly of shape `\d+\.\d+\.\d+` (it has a trailing
newline), refuting "strings with trailing whitespace/newlines are
rejected". -/
theorem C1_counterexample :
    validate_version strC1.toList = true ∧ ¬ specShape strC1.toList := by
  constructor
  · decide
  · rintro ⟨a, b, c, ha, hb, hc, heq⟩
    have hmem : '\n' ∈ strC1.toList := by decide
    rw [heq] at hmem
    rcases List.mem_append.mp hmem with h | h
    · have := ha.2 '\n' h; simp at this
    · rcases List.mem_cons.mp h with h | h
      · exact absurd h.symm (by decide)
      · rcases List.mem_append.mp h with h | h
        · have := hb.2 '\n' h; simp at this
        · rcases List.mem_cons.mp h with h | h
          · exact absurd h.symm (by decide)
          · have := hc.2 '\n' h; simp at this

def strOk : String := "1.0.5"

/-- Witness for C1: the amended theorem applied at `"1.0.5"`. -/
theorem C1_witness :
    specShape strOk.toList ∨
      ∃ t, specShape t ∧ strOk.toList = t ++ '\n' :: [] :=
  (C1_validate_version_amended strOk.toList).mp (by decide)

/-! ### Manifest regex machinery (deploy.py lines 50-96)

`get_current_version` uses `re.search(r'^version = "([^"]+)"', content,
re.MULTILINE)` and returns group 1 of the first match;
`update_version` uses `re.sub(r'^version = "[^"]+"', f'version = "NEW"',
content, flags=re.MULTILINE)`, which replaces EVERY match (no `count`
argument).  With `re.MULTILINE`, `^` matches at the start of the content
and right after each newline.  The class `[^"]` is greedy and stops at
the first following double quote (backtracking cannot change this since
shrinking the run can never place a quote at the boundary). -/

def verLitStr : String := "version = "

/-- The literal part of the manifest pattern: `version = "`. -/
def verLit : List Char := verLitStr.toList ++ dq :: []

/-- Consume an exact literal from the front of a string. -/
def dropLit : List Char → List Char → Option (List Char)
  | [], s => some s
  | _ :: _, [] => none
  | c :: p, d :: s => if c = d then dropLit p s else none

/-- Attempt to match `version = "([^"]+)"` at the current position.
Returns `(group 1, remainder after the closing quote)` on success. -/
def matchCore (s : List Char) : Option (List Char × List Char) :=
  match dropLit verLit s with
  | none => none
  | some rem =>
    match rem.takeWhile (fun c => !(c == dq)), rem.dropWhile (fun c => !(c == dq)) with
    | [], _ => none
    | _ :: _, [] => none
    | run :: runs, q :: tail => if q = dq then some (run :: runs, tail) else none

/-- The remainder after a whole-pattern match (used by the substitution
scanner). -/
def tryMatchVer (s : List Char) : Option (List Char) :=
  (matchCore s).map Prod.snd

/-- Group 1 of a pattern match (used by the search scanner). -/
def tryGroupVer (s : List Char) : Option (List Char) :=
  (matchCore s).map Prod.fst

/-- The `re.search` scan of `get_current_version`: walk the content
position by position; `^` restricts match attempts to line starts
(`atStart`); return group 1 of the first match. -/
def scanVer : List Char → Bool → Option (List Char)
  | [], _ => none
  | c :: rest, false => scanVer rest (c == '\n')
  | c :: rest, true =>
    match tryGroupVer (c :: rest) with
    | some g => some g
    | none => scanVer rest (c == '\n')

/-- `get_current_version` from deploy.py (on given file content): group 1
of the first `^version = "([^"]+)"` match, scanning multiline. -/
def get_current_version (content : List Char) : Option (List Char) :=
  scanVer content true

/-! #### Basic facts about the pattern matcher -/

theorem dropLit_some_decomp :
    ∀ {p s r : List Char}, dropLit p s = some r → s = p ++ r := by
  intro p
  induction p with
  | nil => intro s r h; simp [dropLit] at h; simpa using h
  | cons c p ih =>
    intro s r h
    cases s with
    | nil => simp [dropLit] at h
    | cons d s' =>
      by_cases hcd : c = d
      · simp [dropLit, hcd] at h
        rw [← hcd, List.cons_append]
        exact congrArg _ (ih h)
      · simp [dropLit, hcd] at h

theorem dropLit_self_append (p t : List Char) : dropLit p (p ++ t) = some t := by
  induction p with
  | nil => rfl
  | cons c p ih => simp [dropLit, ih]

theorem dropLit_none_extend :
    ∀ {p s : List Char}, (∀ c ∈ p, c ≠ '\n') → dropLit p s = none →
      ∀ t, dropLit p (s ++ '\n' :: t) = none := by
  intro p
  induction p with
  | nil => intro s h hn t; simp [dropLit] at hn
  | cons c p ih =>
    intro s h hn t
    cases s with
    | nil =>
      have hc : c ≠ '\n' := h c (List.mem_cons_self c p)
      simp [dropLit, hc]
    | cons d s' =>
      by_cases hcd : c = d
      · simp [dropLit, hcd] at hn ⊢
        exact ih (fun x hx => h x (List.mem_cons_of_mem c hx)) hn t
      · simp [dropLit, hcd]

theorem verLit_ne_nil : verLit ≠ [] := by decide

theorem verLit_no_newline : ∀ c ∈ verLit, c ≠ '\n' := by decide

theorem matchCore_nil : matchCore [] = none := by
  have : dropLit verLit [] = none := by
    cases hv : verLit with
    | nil => exact absurd hv verLit_ne_nil
    | cons c p => rfl
  simp [matchCore, this]

/-- Structure of a successful match: the input starts with the literal,
then a nonempty quote-free group, the closing quote, and the tail. -/
theorem matchCore_decomp {s run tail : List Char}
    (h : matchCore s = some (run, tail)) :
    s = verLit ++ run ++ dq :: tail ∧ run ≠ [] ∧ ∀ c ∈ run, c ≠ dq := by
  unfold matchCore at h
  split at h
  · simp at h
  · next rem hd =>
    have hrem : s = verLit ++ rem := dropLit_some_decomp hd
    split at h
    · simp at h
    · simp at h
    · next r0 rs q tl htw hdw =>
      by_cases hq : q = dq
      · rw [if_pos hq] at h
        have hrun : r0 :: rs = run := by
          have := congrArg (fun o => o.map Prod.fst) h
          simpa using this
        have htail : tl = tail := by
          have := congrArg (fun o => o.map Prod.snd) h
          simpa using this
        have hsplit : (r0 :: rs) ++ q :: tl = rem := by
          rw [← htw, ← hdw]; exact List.takeWhile_append_dropWhile _ _
        refine ⟨?_, ?_, ?_⟩
        · rw [hrem, ← hsplit, hrun, htail, hq]
          simp
        · rw [← hrun]; simp
        · intro c hc
          rw [← hrun] at hc
          have := mem_takeWhile_pred (htw ▸ hc)
          simp at this
          exact this
      · rw [if_neg hq] at h; simp at h

theorem tryMatchVer_length {s tail : List Char}
    (h : tryMatchVer s = some tail) : tail.length < s.length := by
  unfold tryMatchVer at h
  cases hm : matchCore s with
  | none => rw [hm] at h; simp at h
  | some p =>
    obtain ⟨run, tl⟩ := p
    rw [hm] at h
    simp at h
    obtain ⟨hdec, hrun, _⟩ := matchCore_decomp hm
    rw [hdec, h]
    simp [List.length_append]
    omega

/-! ### `re.sub` of `update_version` (deploy.py lines 75-80)

Fuel-based scanner so that the definition is structural (the fuel is the
content length; each step consumes at least one character). -/

/-- Replacement text `version = "NEW"`. -/
def replText (new : List Char) : List Char := verLit ++ new ++ dq :: []

/-- One pass of `re.sub(^version = "[^"]+", version = "NEW", content,
MULTILINE)`: at each line start try the pattern; on a match emit the
replacement and continue after the match (not at a line start, since a
match ends with `"`); otherwise copy one character. -/
def subScanF (new : List Char) : Nat → List Char → Bool → List Char
  | _, [], _ => []
  | 0, _ :: _, _ => []
  | fuel + 1, c :: rest, false => c :: subScanF new fuel rest (c == '\n')
  | fuel + 1, c :: rest, true =>
    match tryMatchVer (c :: rest) with
    | some tail => replText new ++ subScanF new fuel tail false
    | none => c :: subScanF new fuel rest (c == '\n')

theorem subScanF_nil (new : List Char) (f : Nat) (b : Bool) :
    subScanF new f [] b = [] := by
  cases f <;> rfl

theorem subScanF_congr (new : List Char) :
    ∀ (f g : Nat) (s : List Char) (b : Bool), s.length ≤ f → s.length ≤ g →
      subScanF new f s b = subScanF new g s b := by
  intro f
  induction f with
  | zero =>
    intro g s b hf hg
    have : s = [] := List.eq_nil_of_length_eq_zero (Nat.le_zero.mp hf)
    rw [this, subScanF_nil, subScanF_nil]
  | succ f ih =>
    intro g s b hf hg
    cases s with
    | nil => rw [subScanF_nil, subScanF_nil]
    | cons c rest =>
      cases g with
      | zero => simp at hg
      | succ g' =>
        simp only [List.length_cons] at hf hg
        cases b with
        | false =>
          simp only [subScanF]
          rw [ih g' rest (c == '\n') (by omega) (by omega)]
        | true =>
          simp only [subScanF]
          cases hm : tryMatchVer (c :: rest) with
          | some tail =>
            have hlen : tail.length < (c :: rest).length := tryMatchVer_length hm
            simp only [List.length_cons] at hlen
            simp only [hm]
            rw [ih g' tail false (by omega) (by omega)]
          | none =>
            simp only [hm]
            rw [ih g' rest (c == '\n') (by omega) (by omega)]

/-- The substitution applied by `update_version`, with exactly enough
fuel. -/
def pySub (new s : List Char) (b : Bool) : List Char :=
  subScanF new s.length s b

/-- `re.sub` of the whole content (scanning starts at a line start). -/
def re_sub_version (new content : List Char) : List Char :=
  pySub new content true

/-! #### Confinement lemmas: a match never crosses the closing quote, and
hence (on well-formed lines) never crosses a newline. -/

theorem takeWhile_stop_append {p : Char → Bool} :
    ∀ {xs : List Char} (ys : List Char), (∃ x ∈ xs, p x = false) →
      (xs ++ ys).takeWhile p = xs.takeWhile p ∧
        (xs ++ ys).dropWhile p = xs.dropWhile p ++ ys := by
  intro xs
  induction xs with
  | nil => intro ys h; simp at h
  | cons a l ih =>
    intro ys h
    by_cases hpa : p a = true
    · obtain ⟨x, hx, hpx⟩ := h
      have hxl : x ∈ l := by
        rcases List.mem_cons.mp hx with rfl | hxl
        · rw [hpa] at hpx; exact absurd hpx (by simp)
        · exact hxl
      obtain ⟨h1, h2⟩ := ih ys ⟨x, hxl, hpx⟩
      constructor
      · rw [List.cons_append, List.takeWhile_cons_of_pos hpa,
          List.takeWhile_cons_of_pos hpa, h1]
      · rw [List.cons_append, List.dropWhile_cons_of_pos hpa,
          List.dropWhile_cons_of_pos hpa, h2]
    · constructor
      · rw [List.cons_append, List.takeWhile_cons_of_neg (by simpa using hpa),
          List.takeWhile_cons_of_neg (by simpa using hpa)]
      · rw [List.cons_append, List.dropWhile_cons_of_neg (by simpa using hpa),
          List.dropWhile_cons_of_neg (by simpa using hpa), List.cons_append]

theorem dropWhile_head_false {p : Char → Bool} :
    ∀ {l : List Char} {q : Char} {tl : List Char},
      l.dropWhile p = q :: tl → p q = false := by
  intro l
  induction l with
  | nil => intro q tl h; simp [List.dropWhile] at h
  | cons a l' ih =>
    intro q tl h
    by_cases hpa : p a = true
    · rw [List.dropWhile_cons_of_pos hpa] at h
      exact ih h
    · rw [List.dropWhile_cons_of_neg (by simpa using hpa)] at h
      injection h with h1 _
      rw [← h1]
      simpa using hpa

theorem dropWhile_ne_nil {p : Char → Bool} {l : List Char}
    (h : ∃ x ∈ l, p x = false) : l.dropWhile p ≠ [] := by
  intro hnil
  obtain ⟨x, hx, hpx⟩ := h
  have hl : l.takeWhile p = l := by
    have := List.takeWhile_append_dropWhile p l
    rw [hnil, List.append_nil] at this
    exact this
  have : p x = true := mem_takeWhile_pred (l := l) (hl.symm ▸ hx)
  rw [hpx] at this
  exact absurd this (by simp)

/-- Building a match from its parts. -/
theorem matchCore_build (run tail : List Char) (h0 : run ≠ [])
    (hq : ∀ c ∈ run, c ≠ dq) :
    matchCore (verLit ++ (run ++ dq :: tail)) = some (run, tail) := by
  have hpred : ∀ c ∈ run, (fun c => !(c == dq)) c = true := by
    intro c hc; simp [hq c hc]
  simp only [matchCore, dropLit_self_append]
  rw [takeWhile_all_append (dq :: tail) hpred,
    dropWhile_all_append (dq :: tail) hpred]
  rw [List.takeWhile_cons_of_neg (by simp), List.dropWhile_cons_of_neg (by simp)]
  cases run with
  | nil => exact absurd rfl h0
  | cons r0 rs => simp

/-- A match at a position is unchanged by appending more content after
it (the class `[^"]` stops at the closing quote). -/
theorem matchCore_some_append {l run tail : List Char}
    (h : matchCore l = some (run, tail)) (ext : List Char) :
    matchCore (l ++ ext) = some (run, tail ++ ext) := by
  obtain ⟨hdec, h0, hq⟩ := matchCore_decomp h
  rw [hdec]
  rw [show (verLit ++ run ++ dq :: tail) ++ ext =
    verLit ++ (run ++ dq :: (tail ++ ext)) by simp]
  exact matchCore_build run (tail ++ ext) h0 hq

theorem matchCore_parts {l rem tl rs : List Char} {r0 : Char}
    (hd : dropLit verLit l = some rem)
    (htw : rem.takeWhile (fun c => !(c == dq)) = r0 :: rs)
    (hdw : rem.dropWhile (fun c => !(c == dq)) = dq :: tl) :
    matchCore l = some (r0 :: rs, tl) := by
  simp only [matchCore, hd, htw, hdw]
  simp

theorem matchCore_run_nil {l rem : List Char}
    (hd : dropLit verLit l = some rem)
    (htw : rem.takeWhile (fun c => !(c == dq)) = []) :
    matchCore l = none := by
  simp only [matchCore, hd, htw]

/-- A line whose text never matches across a newline: it contains no
newline itself, and if it starts with the literal `version = "` then a
closing quote occurs in its remainder (so the greedy `[^"]+` cannot run
past the end of the line). -/
def goodLine (l : List Char) : Bool :=
  (l.all fun c => !(c == '\n')) &&
    (match dropLit verLit l with
     | some rem => rem.any fun c => c == dq
     | none => true)

theorem goodLine_no_newline {l : List Char} (h : goodLine l = true) :
    '\n' ∉ l := by
  intro hm
  simp [goodLine, List.all_eq_true] at h
  exact h.1 '\n' hm rfl

theorem goodLine_dq {l rem : List Char} (h : goodLine l = true)
    (hd : dropLit verLit l = some rem) : dq ∈ rem := by
  simp [goodLine, List.all_eq_true] at h
  have h2 := h.2
  rw [hd] at h2
  simp only [List.any_eq_true, beq_iff_eq] at h2
  obtain ⟨c, hc1, hc2⟩ := h2
  rw [← hc2]
  exact hc1

/-- On a good line, failure to match is also unchanged by appending a
newline and more content. -/
theorem matchCore_none_extend {l : List Char} (hnone : matchCore l = none)
    (hgood : ∀ rem, dropLit verLit l = some rem → dq ∈ rem) (ext : List Char) :
    matchCore (l ++ '\n' :: ext) = none := by
  cases hd : dropLit verLit l with
  | none =>
    have hext := dropLit_none_extend verLit_no_newline hd ext
    simp only [matchCore, hext]
  | some rem =>
    have hdq : dq ∈ rem := hgood rem hd
    have hrem : l = verLit ++ rem := dropLit_some_decomp hd
    have hd2 : dropLit verLit (l ++ '\n' :: ext) = some (rem ++ '\n' :: ext) := by
      rw [hrem, List.append_assoc]
      exact dropLit_self_append _ _
    have hstop : ∃ x ∈ rem, (fun c => !(c == dq)) x = false := ⟨dq, hdq, by simp⟩
    obtain ⟨htw_eq, hdw_eq⟩ := takeWhile_stop_append ('\n' :: ext) hstop
    cases htw : rem.takeWhile (fun c => !(c == dq)) with
    | cons r0 rs =>
      have hne : rem.dropWhile (fun c => !(c == dq)) ≠ [] := dropWhile_ne_nil hstop
      cases hdw : rem.dropWhile (fun c => !(c == dq)) with
      | nil => exact absurd hdw hne
      | cons q tl =>
        have hq : q = dq := by
          have := dropWhile_head_false hdw
          simpa using this
        rw [hq] at hdw
        rw [matchCore_parts hd htw hdw] at hnone
        exact absurd hnone (by simp)
    | nil =>
      have htw2 : (rem ++ '\n' :: ext).takeWhile (fun c => !(c == dq)) = [] := by
        rw [htw_eq, htw]
      exact matchCore_run_nil hd2 htw2

/-! #### Unfolding equations for the substitution at exact fuel -/

theorem pySub_nil (new : List Char) (b : Bool) : pySub new [] b = [] := rfl

theorem pySub_cons_false (new : List Char) (c : Char) (rest : List Char) :
    pySub new (c :: rest) false = c :: pySub new rest (c == '\n') := rfl

theorem pySub_cons_true_none {c : Char} {rest : List Char}
    (hm : tryMatchVer (c :: rest) = none) (new : List Char) :
    pySub new (c :: rest) true = c :: pySub new rest (c == '\n') := by
  simp only [pySub, List.length_cons, subScanF, hm]

theorem pySub_cons_true_some {c : Char} {rest tail : List Char}
    (hm : tryMatchVer (c :: rest) = some tail) (new : List Char) :
    pySub new (c :: rest) true = replText new ++ pySub new tail false := by
  have hlen : tail.length ≤ rest.length := by
    have := tryMatchVer_length hm
    simp at this
    omega
  simp only [pySub, List.length_cons, subScanF, hm]
  congr 1
  exact subScanF_congr new rest.length tail.length tail false hlen le_rfl

/-! #### Line-level behaviour of the substitution -/

/-- Spec-side description of what happens to one line: if it matches
`^version = "([^"]+)"`, the matched part is replaced by
`version = "NEW"` and the tail of the line is kept; otherwise the line
is unchanged. -/
def rewriteLine (new l : List Char) : List Char :=
  match tryMatchVer l with
  | some tail => replText new ++ tail
  | none => l

/-- Join lines with single newlines (inverse of splitting content into
lines). -/
def joinLines : List (List Char) → List Char
  | [] => []
  | l :: [] => l
  | l :: l2 :: ls => l ++ '\n' :: joinLines (l2 :: ls)

theorem pySub_append_false (new : List Char) :
    ∀ (l : List Char), '\n' ∉ l → ∀ rest,
      pySub new (l ++ rest) false = l ++ pySub new rest false := by
  intro l
  induction l with
  | nil => intro _ rest; rfl
  | cons c l' ih =>
    intro h rest
    have hc : (c == '\n') = false := by
      simp only [beq_eq_false_iff_ne, ne_eq]
      intro hcc
      exact h (by rw [hcc]; exact List.mem_cons_self _ _)
    rw [List.cons_append, pySub_cons_false, hc,
      ih (fun hm => h (List.mem_cons_of_mem c hm)) rest]
    rfl

theorem pySub_line_true (new : List Char) (l : List Char)
    (hg : goodLine l = true) :
    ∀ rest, pySub new (l ++ '\n' :: rest) true =
      rewriteLine new l ++ '\n' :: pySub new rest true := by
  intro rest
  cases hm : matchCore l with
  | some p =>
    obtain ⟨run, tail⟩ := p
    have hdec := matchCore_decomp hm
    have hm2 : matchCore (l ++ '\n' :: rest) = some (run, tail ++ '\n' :: rest) :=
      matchCore_some_append hm _
    have htm : tryMatchVer (l ++ '\n' :: rest) = some (tail ++ '\n' :: rest) := by
      simp [tryMatchVer, hm2]
    obtain ⟨c, l', hl⟩ : ∃ c l', l = c :: l' := by
      cases l with
      | nil => rw [matchCore_nil] at hm; exact absurd hm (by simp)
      | cons c l' => exact ⟨c, l', rfl⟩
    have hnltail : '\n' ∉ tail := by
      intro hmem
      exact goodLine_no_newline hg (by rw [hdec.1]; simp [hmem])
    have hrw : rewriteLine new l = replText new ++ tail := by
      simp [rewriteLine, tryMatchVer, hm]
    subst hl
    rw [List.cons_append,
      pySub_cons_true_some (by simpa using htm) new,
      pySub_append_false new tail hnltail ('\n' :: rest),
      pySub_cons_false, hrw]
    simp
  | none =>
    have hm2 : matchCore (l ++ '\n' :: rest) = none :=
      matchCore_none_extend hm (fun rem hd => goodLine_dq hg hd) rest
    have htm : tryMatchVer (l ++ '\n' :: rest) = none := by
      simp [tryMatchVer, hm2]
    have hrw : rewriteLine new l = l := by simp [rewriteLine, tryMatchVer, hm]
    rw [hrw]
    cases l with
    | nil =>
      rw [List.nil_append, pySub_cons_true_none (by simpa using htm) new]
      simp
    | cons c l' =>
      have hnl : '\n' ∉ c :: l' := goodLine_no_newline hg
      have hc : (c == '\n') = false := by
        simp only [beq_eq_false_iff_ne, ne_eq]
        intro hcc
        exact hnl (by rw [hcc]; exact List.mem_cons_self _ _)
      rw [List.cons_append, pySub_cons_true_none (by simpa using htm) new, hc,
        pySub_append_false new l' (fun hmm => hnl (List.mem_cons_of_mem c hmm))
          ('\n' :: rest),
        pySub_cons_false]
      simp

theorem pySub_line_last (new l : List Char) (hg : goodLine l = true) :
    pySub new l true = rewriteLine new l := by
  cases hm : matchCore l with
  | some p =>
    obtain ⟨run, tail⟩ := p
    have hdec := matchCore_decomp hm
    have htm : tryMatchVer l = some tail := by simp [tryMatchVer, hm]
    obtain ⟨c, l', hl⟩ : ∃ c l', l = c :: l' := by
      cases l with
      | nil => rw [matchCore_nil] at hm; exact absurd hm (by simp)
      | cons c l' => exact ⟨c, l', rfl⟩
    have hnltail : '\n' ∉ tail := by
      intro hmem
      exact goodLine_no_newline hg (by rw [hdec.1]; simp [hmem])
    have hsub : pySub new tail false = tail := by
      have := pySub_append_false new tail hnltail []
      simpa [pySub_nil] using this
    have hrw : rewriteLine new l = replText new ++ tail := by
      simp [rewriteLine, tryMatchVer, hm]
    subst hl
    rw [pySub_cons_true_some (by simpa using htm) new, hsub, hrw]
  | none =>
    have hrw : rewriteLine new l = l := by simp [rewriteLine, tryMatchVer, hm]
    rw [hrw]
    cases l with
    | nil => rfl
    | cons c l' =>
      have hnl : '\n' ∉ c :: l' := goodLine_no_newline hg
      have hc : (c == '\n') = false := by
        simp only [beq_eq_false_iff_ne, ne_eq]
        intro hcc
        exact hnl (by rw [hcc]; exact List.mem_cons_self _ _)
      have hsub : pySub new l' false = l' := by
        have := pySub_append_false new l'
          (fun hmm => hnl (List.mem_cons_of_mem c hmm)) []
        simpa [pySub_nil] using this
      rw [pySub_cons_true_none (by simp [tryMatchVer, hm]) new, hc, hsub]

/-- `re.sub` acts line by line: on content made of good lines it rewrites
exactly the matching lines and leaves everything else unchanged. -/
theorem pySub_joinLines (new : List Char) :
    ∀ lines : List (List Char), (∀ l ∈ lines, goodLine l = true) →
      pySub new (joinLines lines) true =
        joinLines (lines.map (rewriteLine new)) := by
  intro lines
  induction lines with
  | nil => intro _; rfl
  | cons l rest ih =>
    intro h
    cases rest with
    | nil =>
      simp only [joinLines, List.map]
      exact pySub_line_last new l (h l (List.mem_cons_self _ _))
    | cons l2 ls =>
      have h1 : goodLine l = true := h l (List.mem_cons_self _ _)
      have h2 : ∀ x ∈ l2 :: ls, goodLine x = true :=
        fun x hx => h x (List.mem_cons_of_mem _ hx)
      rw [show joinLines (l :: l2 :: ls) = l ++ '\n' :: joinLines (l2 :: ls)
        from rfl]
      rw [pySub_line_true new l h1 (joinLines (l2 :: ls)), ih h2]
      rfl

/-! #### Line-level behaviour of the version search -/

theorem scanVer_found {s g : List Char} (h : tryGroupVer s = some g) :
    scanVer s true = some g := by
  cases s with
  | nil =>
    rw [show tryGroupVer [] = none from by simp [tryGroupVer, matchCore_nil]] at h
    exact absurd h (by simp)
  | cons c rest => simp only [scanVer, h]

theorem scanVer_append_false :
    ∀ (l : List Char), '\n' ∉ l → ∀ rest,
      scanVer (l ++ rest) false = scanVer rest false := by
  intro l
  induction l with
  | nil => intro _ rest; rfl
  | cons c l' ih =>
    intro h rest
    have hc : (c == '\n') = false := by
      simp only [beq_eq_false_iff_ne, ne_eq]
      intro hcc
      exact h (by rw [hcc]; exact List.mem_cons_self _ _)
    rw [List.cons_append, show scanVer (c :: (l' ++ rest)) false =
      scanVer (l' ++ rest) (c == '\n') from rfl, hc,
      ih (fun hm => h (List.mem_cons_of_mem c hm)) rest]

theorem scanVer_skip_line {l : List Char} (hm : matchCore l = none)
    (hg : goodLine l = true) (rest : List Char) :
    scanVer (l ++ '\n' :: rest) true = scanVer rest true := by
  have hm2 : matchCore (l ++ '\n' :: rest) = none :=
    matchCore_none_extend hm (fun rem hd => goodLine_dq hg hd) rest
  have htg : tryGroupVer (l ++ '\n' :: rest) = none := by
    simp [tryGroupVer, hm2]
  cases l with
  | nil =>
    rw [List.nil_append] at htg ⊢
    simp only [scanVer, htg]
    simp [scanVer]
  | cons c l' =>
    have hnl : '\n' ∉ c :: l' := goodLine_no_newline hg
    have hc : (c == '\n') = false := by
      simp only [beq_eq_false_iff_ne, ne_eq]
      intro hcc
      exact hnl (by rw [hcc]; exact List.mem_cons_self _ _)
    rw [List.cons_append]
    simp only [scanVer, (show tryGroupVer (c :: (l' ++ '\n' :: rest)) = none
      from by simpa using htg)]
    rw [hc, scanVer_append_false l'
      (fun hmm => hnl (List.mem_cons_of_mem c hmm)) ('\n' :: rest)]
    simp [scanVer]

/-- After the substitution, the first matching line yields exactly the new
version as group 1. -/
theorem scanVer_joinLines_rewrite (new : List Char) (hne : new ≠ [])
    (hnq : ∀ c ∈ new, c ≠ dq) :
    ∀ lines : List (List Char), (∀ l ∈ lines, goodLine l = true) →
      (∃ l ∈ lines, (matchCore l).isSome = true) →
      scanVer (joinLines (lines.map (rewriteLine new))) true = some new := by
  intro lines
  induction lines with
  | nil =>
    intro _ hex
    simp at hex
  | cons l rest ih =>
    intro h hex
    have h1 : goodLine l = true := h l (List.mem_cons_self _ _)
    cases hm : matchCore l with
    | some p =>
      obtain ⟨run, tail⟩ := p
      have hrw : rewriteLine new l = replText new ++ tail := by
        simp [rewriteLine, tryMatchVer, hm]
      cases rest with
      | nil =>
        rw [show joinLines ((l :: []).map (rewriteLine new)) =
          rewriteLine new l from rfl, hrw]
        apply scanVer_found
        rw [show replText new ++ tail = verLit ++ (new ++ dq :: tail) by
          simp [replText]]
        simp [tryGroupVer, matchCore_build new tail hne hnq]
      | cons l2 ls =>
        rw [show joinLines ((l :: l2 :: ls).map (rewriteLine new)) =
          rewriteLine new l ++ '\n' ::
            joinLines ((l2 :: ls).map (rewriteLine new)) from rfl, hrw]
        apply scanVer_found
        rw [show (replText new ++ tail) ++ '\n' ::
            joinLines ((l2 :: ls).map (rewriteLine new)) =
          verLit ++ (new ++ dq :: (tail ++ '\n' ::
            joinLines ((l2 :: ls).map (rewriteLine new)))) by
          simp [replText]]
        simp [tryGroupVer, matchCore_build new _ hne hnq]
    | none =>
      have hrw : rewriteLine new l = l := by
        simp [rewriteLine, tryMatchVer, hm]
      cases rest with
      | nil =>
        obtain ⟨l', hl', hs⟩ := hex
        have : l' = l := by simpa using hl'
        rw [this, hm] at hs
        simp at hs
      | cons l2 ls =>
        have h2 : ∀ x ∈ l2 :: ls, goodLine x = true :=
          fun x hx => h x (List.mem_cons_of_mem _ hx)
        have hex2 : ∃ x ∈ l2 :: ls, (matchCore x).isSome = true := by
          obtain ⟨l', hl', hs⟩ := hex
          rcases List.mem_cons.mp hl' with rfl | hl'
          · rw [hm] at hs; simp at hs
          · exact ⟨l', hl', hs⟩
        rw [show joinLines ((l :: l2 :: ls).map (rewriteLine new)) =
          rewriteLine new l ++ '\n' ::
            joinLines ((l2 :: ls).map (rewriteLine new)) from rfl, hrw,
          scanVer_skip_line hm h1 _]
        exact ih h2 hex2

/-! ### Filesystem state and `update_version` / `restore_backup`
(deploy.py lines 63-96 and 111-116) -/

/-- The mutable filesystem state the orchestrator touches: the manifest
(`pyproject.toml`) content, the backup file (`pyproject.toml.backup`)
content if it exists, and whether the `dist/` directory exists and is
non-empty. -/
structure FS where
  manifest : List Char
  backup : Option (List Char)
  dist : Bool
  deriving DecidableEq

/-- `update_version` from deploy.py: copy the manifest to the backup,
apply the `re.sub` rewrite, write the result back, then re-read the
current version; on mismatch copy the backup back over the manifest
(leaving the backup file in place) and report failure. -/
def update_version (new : List Char) (fs : FS) : Bool × FS :=
  let updated := re_sub_version new fs.manifest
  match get_current_version updated with
  | some v =>
    if v = new then (true, ⟨updated, some fs.manifest, fs.dist⟩)
    else (false, ⟨fs.manifest, some fs.manifest, fs.dist⟩)
  | none => (false, ⟨fs.manifest, some fs.manifest, fs.dist⟩)

/-- `restore_backup` from deploy.py: if a backup exists, copy it over the
manifest and delete the backup file; otherwise do nothing. -/
def restore_backup (fs : FS) : FS :=
  match fs.backup with
  | some b => ⟨b, none, fs.dist⟩
  | none => fs

/-! ### Claims C2 and C3 -/

/-- Claim C2, amended: on a manifest consisting of newline-separated
lines in which every line beginning with `version = "` also contains a
closing quote, if at least one line matches `version = "..."` and the new
version is a nonempty quote-free string, then `update_version` succeeds
and rewrites EVERY matching line (not only the first) to the new version,
leaving all other content byte-identical; re-reading afterwards yields
exactly the new version. -/
theorem C2_update_version_amended (new : List Char) (lines : List (List Char))
    (fs : FS) (hne : new ≠ []) (hnq : ∀ c ∈ new, c ≠ dq)
    (hlines : ∀ l ∈ lines, goodLine l = true)
    (hmatch : ∃ l ∈ lines, (matchCore l).isSome = true)
    (hfs : fs.manifest = joinLines lines) :
    (update_version new fs).1 = true ∧
    (update_version new fs).2.manifest =
      joinLines (lines.map (rewriteLine new)) ∧
    get_current_version (update_version new fs).2.manifest = some new := by
  have hsub : re_sub_version new fs.manifest =
      joinLines (lines.map (rewriteLine new)) := by
    rw [hfs]
    exact pySub_joinLines new lines hlines
  have hget : get_current_version (joinLines (lines.map (rewriteLine new))) =
      some new :=
    scanVer_joinLines_rewrite new hne hnq lines hlines hmatch
  have hupd : update_version new fs =
      (true, ⟨joinLines (lines.map (rewriteLine new)), some fs.manifest,
        fs.dist⟩) := by
    simp only [update_version, hsub, hget]
    simp
  rw [hupd]
  exact ⟨rfl, rfl, hget⟩

def verA : String := "1.0.0"

def verB : String := "2.0.0"

def verNew : String := "3.0.0"

/-- A manifest line `version = "1.0.0"`. -/
def lineA : List Char := verLit ++ verA.toList ++ dq :: []

/-- A manifest line `version = "2.0.0"`. -/
def lineB : List Char := verLit ++ verB.toList ++ dq :: []

/-- A manifest with TWO version lines. -/
def contentC2 : List Char := lineA ++ '\n' :: lineB

def fsC2 : FS := ⟨contentC2, none, false⟩

/-- What the claim predicts: only the first matching line rewritten. -/
def claimedC2 : List Char := (verLit ++ verNew.toList ++ dq :: []) ++ '\n' :: lineB

/-- Claim C2, counterexample: on a manifest with two `version = "..."`
lines, `update_version` succeeds but the result is NOT the claimed
"only the first matching line rewritten" content — `re.sub` without a
count rewrites every matching line, so the second line is changed too. -/
theorem C2_counterexample :
    get_current_version contentC2 = some verA.toList ∧
    (update_version verNew.toList fsC2).1 = true ∧
    (update_version verNew.toList fsC2).2.manifest ≠ claimedC2 := by
  decide

def otherLineStr : String := "description = test"

def linesC2 : List (List Char) := lineA :: otherLineStr.toList :: []

def fsC2w : FS := ⟨joinLines linesC2, none, false⟩

/-- Witness for C2: the amended theorem applied to a concrete two-line
manifest. -/
theorem C2_witness :
    (update_version verNew.toList fsC2w).1 = true ∧
    (update_version verNew.toList fsC2w).2.manifest =
      joinLines (linesC2.map (rewriteLine verNew.toList)) ∧
    get_current_version (update_version verNew.toList fsC2w).2.manifest =
      some verNew.toList :=
  C2_update_version_amended verNew.toList linesC2 fsC2w (by decide) (by decide)
    (by decide) (by decide) rfl

/-- Claim C3: if `update_version`'s read-after-write verification fails,
the manifest content after the call equals its content before the call
(the backup copy is restored over the manifest). -/
theorem C3_update_version_failure_restores (new : List Char) (fs : FS)
    (h : (update_version new fs).1 = false) :
    (update_version new fs).2.manifest = fs.manifest := by
  simp only [update_version] at h ⊢
  cases hg : get_current_version (re_sub_version new fs.manifest) with
  | none => simp [hg]
  | some v =>
    simp only [hg] at h ⊢
    by_cases hv : v = new
    · simp [hv] at h
    · simp [hv]

def noMatchStr : String := "name = pymercury"

def fsC3 : FS := ⟨noMatchStr.toList, none, false⟩

/-- Witness for C3: a manifest with no version line makes the
verification fail, and the manifest is unchanged. -/
theorem C3_witness :
    (update_version verNew.toList fsC3).1 = false ∧
    (update_version verNew.toList fsC3).2.manifest = fsC3.manifest :=
  ⟨by decide, C3_update_version_failure_restores verNew.toList fsC3 (by decide)⟩

/-! ### Confirmation prompts (deploy.py lines 154 and 204)

Each prompt reads a line and tests `response.strip().lower() == 'y'`.
`strip` removes leading/trailing whitespace; `lower` lowercases (for the
characters that can become `y`, ASCII lowering is exact). -/

/-- The whitespace characters stripped by Python's `str.strip()` (ASCII
portion). -/
def pyWhitespace (c : Char) : Bool :=
  (c == ' ') || (c == '\t') || (c == '\n') || (c == '\r') ||
    (c == Char.ofNat 11) || (c == Char.ofNat 12)

/-- Python `str.strip()`. -/
def pyStrip (s : List Char) : List Char :=
  ((s.dropWhile pyWhitespace).reverse.dropWhile pyWhitespace).reverse

/-- Python `str.lower()` (ASCII). -/
def pyLower (s : List Char) : List Char := s.map Char.toLower

/-- `response.strip().lower() == 'y'` from deploy.py. -/
def affirmative (s : List Char) : Bool := pyLower (pyStrip s) == 'y' :: []

/-! ### The release orchestrator `main` (deploy.py lines 118-246)

The `try` block starts right after the first confirmation prompt (line
159) and ends with the upload (line 237); `except KeyboardInterrupt` and
`except Exception` both call `restore_backup()` and `sys.exit(1)`.  An
interrupt or unexpected exception inside the try block is modelled by an
abort point naming the step after which it fires (both exception classes
behave identically there).  An interrupt at the first prompt is OUTSIDE
the try block: it propagates uncaught. -/

/-- Points inside the try block after which an operator interrupt or an
unexpected exception may fire. -/
inductive TryPoint where
  | afterUpdate
  | afterClean
  | afterBuild
  | afterDistCheck
  | afterPrompt2
  deriving DecidableEq

/-- How the process ends: `sys.exit code`, or an uncaught exception
propagating with the interpreter's default behaviour. -/
inductive Term where
  | exited (code : Nat)
  | uncaught
  deriving DecidableEq

/-- Outcome of a run: termination kind, final filesystem state, and
bookkeeping — whether `update_version` was invoked (the mutation began),
whether a restoration of the manifest from its backup was attempted
(either `restore_backup()` or the internal restore in `update_version`),
and whether the upload step was attempted. -/
structure Result where
  term : Term
  fs : FS
  mutated : Bool
  restored : Bool
  uploaded : Bool
  deriving DecidableEq

/-- Inputs and environment behaviour for one run of `main`. -/
structure Env where
  argc : Nat
  version : List Char
  manifestExists : Bool
  depsOk : Bool
  fs0 : FS
  interrupt1 : Bool
  confirm1 : List Char
  cleanOk : Bool
  buildOk : Bool
  distNonempty : Bool
  confirm2 : List Char
  uploadOk : Bool
  abortAt : Option TryPoint

/-- The filesystem right after the version update. -/
def updFS (env : Env) : FS := (update_version env.version env.fs0).2

/-- The filesystem after the cleanup step (`rm -rf dist/ ...`). -/
def fsAfterClean (env : Env) : FS :=
  ⟨(updFS env).manifest, (updFS env).backup, false⟩

/-- The filesystem after the build step (`python -m build`). -/
def fsAfterBuild (env : Env) : FS :=
  ⟨(updFS env).manifest, (updFS env).backup, env.distNonempty⟩

/-- The `try` block of `main` (deploy.py lines 159-246): update the
version (exit 1 on failure — the internal restore already ran), clean,
build, check `dist/`, second prompt, upload; each failure after the
mutation calls `restore_backup()` then exits 1; an abort at any point is
caught by the `except` handlers, which also restore and exit 1.
Declining the second prompt deletes the backup and exits 0 without
rollback. -/
def tryBlock (env : Env) : Result :=
  if (update_version env.version env.fs0).1 = false then
    ⟨Term.exited 1, updFS env, true, true, false⟩
  else if env.abortAt = some TryPoint.afterUpdate then
    ⟨Term.exited 1, restore_backup (updFS env), true, true, false⟩
  else if env.cleanOk = false then
    ⟨Term.exited 1, restore_backup (updFS env), true, true, false⟩
  else if env.abortAt = some TryPoint.afterClean then
    ⟨Term.exited 1, restore_backup (fsAfterClean env), true, true, false⟩
  else if env.buildOk = false then
    ⟨Term.exited 1, restore_backup (fsAfterClean env), true, true, false⟩
  else if env.abortAt = some TryPoint.afterBuild then
    ⟨Term.exited 1, restore_backup (fsAfterBuild env), true, true, false⟩
  else if (fsAfterBuild env).dist = false then
    ⟨Term.exited 1, restore_backup (fsAfterBuild env), true, true, false⟩
  else if env.abortAt = some TryPoint.afterDistCheck then
    ⟨Term.exited 1, restore_backup (fsAfterBuild env), true, true, false⟩
  else if affirmative env.confirm2 = false then
    ⟨Term.exited 0, ⟨(fsAfterBuild env).manifest, none, (fsAfterBuild env).dist⟩,
      true, false, false⟩
  else if env.abortAt = some TryPoint.afterPrompt2 then
    ⟨Term.exited 1, restore_backup (fsAfterBuild env), true, true, false⟩
  else if env.uploadOk then
    ⟨Term.exited 0, ⟨(fsAfterBuild env).manifest, none, (fsAfterBuild env).dist⟩,
      true, false, true⟩
  else ⟨Term.exited 1, restore_backup (fsAfterBuild env), true, true, true⟩

/-- `main` from deploy.py: argument count, version format, manifest
existence and dependency checks, current-version read, first
confirmation prompt (outside the try block: an interrupt there
propagates uncaught), then the try block. -/
def main (env : Env) : Result :=
  if env.argc ≠ 2 then ⟨Term.exited 1, env.fs0, false, false, false⟩
  else if validate_version env.version = false then
    ⟨Term.exited 1, env.fs0, false, false, false⟩
  else if env.manifestExists = false then
    ⟨Term.exited 1, env.fs0, false, false, false⟩
  else if env.depsOk = false then
    ⟨Term.exited 1, env.fs0, false, false, false⟩
  else
    match get_current_version env.fs0.manifest with
    | none => ⟨Term.exited 1, env.fs0, false, false, false⟩
    | some _ =>
      if env.interrupt1 then ⟨Term.uncaught, env.fs0, false, false, false⟩
      else if affirmative env.confirm1 = false then
        ⟨Term.exited 0, env.fs0, false, false, false⟩
      else tryBlock env

/-! ### `run_tests.py` (lines 12-43)

Returns 1 if the test framework is unavailable; otherwise runs the
framework as a subprocess and returns 0 exactly when its exit status is
0, else 1 (and `sys.exit` propagates that value as the process exit
code). -/

def run_tests_main (pytestAvailable : Bool) (returncode : Int) : Nat :=
  if pytestAvailable = false then 1
  else if returncode = 0 then 0
  else 1

/-! ### Helper lemmas about `update_version`, `restore_backup`, `main` -/

theorem update_version_backup (new : List Char) (fs : FS) :
    (update_version new fs).2.backup = some fs.manifest := by
  simp only [update_version]
  cases hg : get_current_version (re_sub_version new fs.manifest) with
  | none => simp
  | some v => by_cases hv : v = new <;> simp [hv]

theorem update_version_fail_manifest {new : List Char} {fs : FS}
    (h : (update_version new fs).1 = false) :
    (update_version new fs).2.manifest = fs.manifest := by
  simp only [update_version] at h ⊢
  cases hg : get_current_version (re_sub_version new fs.manifest) with
  | none => simp [hg]
  | some v =>
    simp only [hg] at h ⊢
    by_cases hv : v = new
    · simp [hv] at h
    · simp [hv]

theorem update_version_success_get {new : List Char} {fs : FS}
    (h : (update_version new fs).1 = true) :
    get_current_version (update_version new fs).2.manifest = some new := by
  simp only [update_version] at h ⊢
  cases hg : get_current_version (re_sub_version new fs.manifest) with
  | none => rw [hg] at h; simp at h
  | some v =>
    simp only [hg] at h ⊢
    by_cases hv : v = new
    · rw [if_pos hv]
      simpa [hv] using hg
    · simp [hv] at h

theorem restore_backup_backup (fs : FS) : (restore_backup fs).backup = none := by
  cases h : fs.backup with
  | some b => simp [restore_backup, h]
  | none => simp [restore_backup, h]

theorem tryBlock_mutated (env : Env) : (tryBlock env).mutated = true := by
  unfold tryBlock
  simp only [apply_ite Result.mutated, ite_self]

set_option maxHeartbeats 1000000 in
theorem tryBlock_restored (env : Env) :
    (tryBlock env).term = Term.exited 1 → (tryBlock env).restored = true := by
  unfold tryBlock
  simp only [apply_ite Result.term, apply_ite Result.restored]
  generalize (update_version env.version env.fs0).1 = b1
  generalize (fsAfterBuild env).dist = d
  generalize affirmative env.confirm2 = a2
  intro h
  repeat' split at h
  all_goals simp_all

set_option maxHeartbeats 1000000 in
theorem main_mutated_eq_tryBlock (env : Env) :
    (main env).mutated = true → main env = tryBlock env := by
  unfold main
  simp only [apply_ite Result.mutated]
  generalize validate_version env.version = vv
  generalize affirmative env.confirm1 = a1
  generalize get_current_version env.fs0.manifest = gv
  intro h
  repeat' split at h
  all_goals first | rfl | simp_all

set_option maxHeartbeats 1000000 in
theorem main_not_mutated_not_restored (env : Env) :
    (main env).mutated = false → (main env).restored = false := by
  unfold main
  simp only [apply_ite Result.mutated, apply_ite Result.restored]
  generalize validate_version env.version = vv
  generalize affirmative env.confirm1 = a1
  generalize get_current_version env.fs0.manifest = gv
  intro h
  repeat' split at h
  all_goals simp_all [tryBlock_mutated env]

/-! ### Claims C4-C10 -/

/-- Claim C4: on every failure path (exit code 1) of the orchestrator
after the manifest mutation has begun, a restoration of the manifest
from its backup is attempted before the process exits; failures before
mutation perform no rollback. -/
theorem C4_rollback_policy (env : Env) :
    ((main env).mutated = true → (main env).term = Term.exited 1 →
      (main env).restored = true) ∧
    ((main env).mutated = false → (main env).restored = false) := by
  constructor
  · intro hmut hterm
    have he := main_mutated_eq_tryBlock env hmut
    rw [he] at hterm ⊢
    exact tryBlock_restored env hterm
  · exact main_not_mutated_not_restored env

def yStr : String := "y"

def nStr : String := "n"

def ver101 : String := "1.0.1"

/-- Environment where the build step fails after a successful mutation. -/
def envC4 : Env :=
  ⟨2, ver101.toList, true, true, ⟨lineA, none, false⟩, false, yStr.toList,
    true, false, true, yStr.toList, true, none⟩

/-- Witness for C4: a failed build after mutation exits 1 and attempts
restoration. -/
theorem C4_witness :
    (main envC4).mutated = true ∧ (main envC4).term = Term.exited 1 ∧
      (main envC4).restored = true :=
  ⟨by decide, by decide, (C4_rollback_policy envC4).1 (by decide) (by decide)⟩

/-- Claim C5, amended: each confirmation prompt treats a response as
affirmative iff, after stripping surrounding whitespace and lowercasing,
it equals `y` (so `Y` is also affirmative); for the first prompt, any
non-affirmative response cancels the deployment with exit code 0 and no
mutation, and an affirmative one proceeds to the mutation. -/
theorem C5_prompt_semantics_amended (env : Env) (cur : List Char)
    (hargc : env.argc = 2) (hval : validate_version env.version = true)
    (hman : env.manifestExists = true) (hdeps : env.depsOk = true)
    (hcur : get_current_version env.fs0.manifest = some cur)
    (hint : env.interrupt1 = false) :
    (pyLower (pyStrip env.confirm1) ≠ 'y' :: [] →
      (main env).term = Term.exited 0 ∧ (main env).fs = env.fs0 ∧
        (main env).mutated = false) ∧
    (pyLower (pyStrip env.confirm1) = 'y' :: [] →
      (main env).mutated = true) := by
  have hmain : main env = (if affirmative env.confirm1 = false then
      ⟨Term.exited 0, env.fs0, false, false, false⟩ else tryBlock env) := by
    simp only [main, hargc, hval, hman, hdeps, hcur, hint]
    simp
  constructor
  · intro hno
    have haff : affirmative env.confirm1 = false := by
      simp only [affirmative, beq_eq_false_iff_ne, ne_eq]
      exact hno
    rw [hmain, if_pos haff]
    exact ⟨rfl, rfl, rfl⟩
  · intro hyes
    have haff : affirmative env.confirm1 = true := by
      simp [affirmative, hyes]
    rw [hmain, if_neg (by simp [haff])]
    exact tryBlock_mutated env

def bigY : String := "Y"

/-- Claim C5, counterexample: the response `"Y"` differs from the exact
lowercase string `"y"`, yet the prompt treats it as affirmative, because
the code strips and lowercases the response before comparing. -/
theorem C5_counterexample :
    affirmative bigY.toList = true ∧ bigY.toList ≠ yStr.toList := by
  decide

/-- Environment where the operator answers `n` to the first prompt. -/
def envC5 : Env :=
  ⟨2, ver101.toList, true, true, ⟨lineA, none, false⟩, false, nStr.toList,
    true, true, true, yStr.toList, true, none⟩

/-- Witness for C5: declining the first prompt exits 0 without mutation. -/
theorem C5_witness :
    (main envC5).term = Term.exited 0 ∧ (main envC5).fs = envC5.fs0 ∧
      (main envC5).mutated = false :=
  (C5_prompt_semantics_amended envC5 verA.toList (by decide) (by decide)
    (by decide) (by decide) (by decide) (by decide)).1 (by decide)

/-- Claim C6: declining the second (pre-upload) confirmation prompt
deletes the backup file, leaves the manifest at the new version (no
rollback), leaves the built artifacts on disk, and exits with code 0. -/
theorem C6_decline_upload (env : Env) (cur : List Char)
    (hargc : env.argc = 2) (hval : validate_version env.version = true)
    (hman : env.manifestExists = true) (hdeps : env.depsOk = true)
    (hcur : get_current_version env.fs0.manifest = some cur)
    (hint : env.interrupt1 = false)
    (hc1 : affirmative env.confirm1 = true)
    (habort : env.abortAt = none)
    (hupd : (update_version env.version env.fs0).1 = true)
    (hclean : env.cleanOk = true) (hbuild : env.buildOk = true)
    (hdist : env.distNonempty = true)
    (hc2 : affirmative env.confirm2 = false) :
    (main env).term = Term.exited 0 ∧
    (main env).fs.backup = none ∧
    (main env).fs.manifest = (update_version env.version env.fs0).2.manifest ∧
    get_current_version (main env).fs.manifest = some env.version ∧
    (main env).fs.dist = true ∧
    (main env).uploaded = false := by
  have hmain : main env = tryBlock env := by
    simp only [main, hargc, hval, hman, hdeps, hcur, hint, hc1]
    simp
  have htb : tryBlock env = ⟨Term.exited 0,
      ⟨(update_version env.version env.fs0).2.manifest, none, true⟩,
      true, false, false⟩ := by
    simp only [tryBlock, updFS, fsAfterClean, fsAfterBuild, hupd, habort,
      hclean, hbuild, hdist, hc2]
    simp
  rw [hmain, htb]
  exact ⟨rfl, rfl, rfl, update_version_success_get hupd, rfl, rfl⟩

/-- Environment where the operator declines the second prompt. -/
def envC6 : Env :=
  ⟨2, ver101.toList, true, true, ⟨lineA, none, false⟩, false, yStr.toList,
    true, true, true, nStr.toList, true, none⟩

/-- Witness for C6. -/
theorem C6_witness :
    (main envC6).term = Term.exited 0 ∧
    (main envC6).fs.backup = none ∧
    (main envC6).fs.manifest =
      (update_version envC6.version envC6.fs0).2.manifest ∧
    get_current_version (main envC6).fs.manifest = some envC6.version ∧
    (main envC6).fs.dist = true ∧
    (main envC6).uploaded = false :=
  C6_decline_upload envC6 verA.toList (by decide) (by decide) (by decide)
    (by decide) (by decide) (by decide) (by decide) (by decide) (by decide)
    (by decide) (by decide) (by decide) (by decide)

/-- Claim C7: if the build succeeds but the output directory is missing
or empty, the orchestrator restores the manifest from the backup and
exits 1 without ever attempting the upload step. -/
theorem C7_empty_dist (env : Env) (cur : List Char)
    (hargc : env.argc = 2) (hval : validate_version env.version = true)
    (hman : env.manifestExists = true) (hdeps : env.depsOk = true)
    (hcur : get_current_version env.fs0.manifest = some cur)
    (hint : env.interrupt1 = false)
    (hc1 : affirmative env.confirm1 = true)
    (habort : env.abortAt = none)
    (hupd : (update_version env.version env.fs0).1 = true)
    (hclean : env.cleanOk = true) (hbuild : env.buildOk = true)
    (hdist : env.distNonempty = false) :
    (main env).term = Term.exited 1 ∧
    (main env).uploaded = false ∧
    (main env).restored = true ∧
    (main env).fs.manifest = env.fs0.manifest := by
  have hmain : main env = tryBlock env := by
    simp only [main, hargc, hval, hman, hdeps, hcur, hint, hc1]
    simp
  have hbackup : (update_version env.version env.fs0).2.backup =
      some env.fs0.manifest := update_version_backup _ _
  have htb : tryBlock env = ⟨Term.exited 1,
      restore_backup ⟨(update_version env.version env.fs0).2.manifest,
        (update_version env.version env.fs0).2.backup, false⟩,
      true, true, false⟩ := by
    simp only [tryBlock, updFS, fsAfterClean, fsAfterBuild, hupd, habort,
      hclean, hbuild, hdist]
    simp
  rw [hmain, htb]
  refine ⟨rfl, rfl, rfl, ?_⟩
  simp [restore_backup, hbackup]

/-- Environment where the build reports success but `dist/` is empty. -/
def envC7 : Env :=
  ⟨2, ver101.toList, true, true, ⟨lineA, none, false⟩, false, yStr.toList,
    true, true, false, yStr.toList, true, none⟩

/-- Witness for C7. -/
theorem C7_witness :
    (main envC7).term = Term.exited 1 ∧
    (main envC7).uploaded = false ∧
    (main envC7).restored = true ∧
    (main envC7).fs.manifest = envC7.fs0.manifest :=
  C7_empty_dist envC7 verA.toList (by decide) (by decide) (by decide)
    (by decide) (by decide) (by decide) (by decide) (by decide) (by decide)
    (by decide) (by decide) (by decide)

/-- Claim C8: the test-runner script exits 0 iff the test-framework
subprocess reports success (exit status 0); in every other case,
including the framework being unavailable, it exits 1. -/
theorem C8_run_tests (a : Bool) (rc : Int) :
    (run_tests_main a rc = 0 ↔ (a = true ∧ rc = 0)) ∧
    (run_tests_main a rc = 0 ∨ run_tests_main a rc = 1) := by
  cases a <;> by_cases h : rc = 0 <;> simp [run_tests_main, h]

/-- Witness for C8. -/
theorem C8_witness :
    run_tests_main true 0 = 0 ∧ run_tests_main false 0 = 1 := by
  constructor
  · exact (C8_run_tests true 0).1.mpr ⟨rfl, rfl⟩
  · rcases (C8_run_tests false 0).2 with h | h
    · exact absurd ((C8_run_tests false 0).1.mp h).1 (by simp)
    · exact h

/-- Claim C9: when `update_version` fails its verification, it restores
the manifest by copying but never deletes the backup — unlike
`restore_backup`, which always leaves no backup behind — so the process
exits 1 from this path with a stale backup file still on disk. -/
theorem C9_stale_backup (env : Env)
    (h : (update_version env.version env.fs0).1 = false) :
    (tryBlock env).term = Term.exited 1 ∧
    (tryBlock env).fs.backup = some env.fs0.manifest ∧
    (tryBlock env).fs.manifest = env.fs0.manifest ∧
    (∀ fs' : FS, (restore_backup fs').backup = none) := by
  have htb : tryBlock env = ⟨Term.exited 1,
      (update_version env.version env.fs0).2, true, true, false⟩ := by
    simp only [tryBlock, updFS, h]
    simp
  rw [htb]
  exact ⟨rfl, update_version_backup _ _, update_version_fail_manifest h,
    fun fs' => restore_backup_backup fs'⟩

/-- Environment whose manifest has no version line, making the
verification fail. -/
def envC9 : Env :=
  ⟨2, ver101.toList, true, true, ⟨noMatchStr.toList, none, false⟩, false,
    yStr.toList, true, true, true, yStr.toList, true, none⟩

/-- Witness for C9. -/
theorem C9_witness :
    (tryBlock envC9).term = Term.exited 1 ∧
    (tryBlock envC9).fs.backup = some envC9.fs0.manifest ∧
    (tryBlock envC9).fs.manifest = envC9.fs0.manifest ∧
    (∀ fs' : FS, (restore_backup fs').backup = none) :=
  C9_stale_backup envC9 (by decide)

/-- Claim C10: an operator interrupt delivered at the first confirmation
prompt (before any mutation) is outside the try block, so it propagates
with the interpreter's default behaviour (not exit code 1), leaving the
manifest unmodified and attempting no restore. -/
theorem C10_interrupt_at_first_prompt (env : Env) (cur : List Char)
    (hargc : env.argc = 2) (hval : validate_version env.version = true)
    (hman : env.manifestExists = true) (hdeps : env.depsOk = true)
    (hcur : get_current_version env.fs0.manifest = some cur)
    (hint : env.interrupt1 = true) :
    (main env).term = Term.uncaught ∧ (main env).term ≠ Term.exited 1 ∧
      (main env).fs = env.fs0 ∧ (main env).mutated = false ∧
      (main env).restored = false := by
  have hmain : main env = ⟨Term.uncaught, env.fs0, false, false, false⟩ := by
    simp only [main, hargc, hval, hman, hdeps, hcur, hint]
    simp
  rw [hmain]
  exact ⟨rfl, by simp, rfl, rfl, rfl⟩

/-- Environment where the interrupt fires during the first prompt. -/
def envC10 : Env :=
  ⟨2, ver101.toList, true, true, ⟨lineA, none, false⟩, true, yStr.toList,
    true, true, true, yStr.toList, true, none⟩

/-- Witness for C10. -/
theorem C10_witness :
    (main envC10).term = Term.uncaught ∧ (main envC10).term ≠ Term.exited 1 ∧
      (main envC10).fs = envC10.fs0 ∧ (main envC10).mutated = false ∧
      (main envC10).restored = false :=
  C10_interrupt_at_first_prompt envC10 verA.toList (by decide) (by decide)
    (by decide) (by decide) (by decide) (by decide)

end PyMercury
